import Mathlib

/-!
Shallow embedding of the core of the `lightweight` static-site generator
(files `lightweight/files.py` and `lightweight/site.py`), together with
models of the small collaborator modules the site module imports
(`lightweight/errors.py`, `lightweight/included.py`, `lightweight/generation.py`,
`lightweight/content/copies_.py` and the `directory` context manager), which are
declared in the repository but whose files are not part of the sources here;
those are modelled from the specification and marked as such.

Python strings become `String`, lists and iterators become `List`, exceptions
become `Except` values, and the mutable `Site` object is threaded explicitly as
state.  Filesystem access (glob expansion, existence checks) is abstracted as a
function-valued environment `FS`.
-/

namespace Lightweight

/-! ## files.py -/

/-- Embedding of Python `file_name.rsplit(sep, 1)`: split at the LAST occurrence
of `sep`; a string with no occurrence of `sep` yields the one-element list. -/
def rsplit1 (sep : Char) (s : String) : List String :=
  let r := s.toList.reverse
  let after := r.takeWhile (fun c => c ≠ sep)
  if after.length = r.length then [s]
  else [String.mk ((r.drop (after.length + 1)).reverse), String.mk after.reverse]

/-- Embedding of `files.extension`: `split = file_name.rsplit('.', 1)`; returns
`None` when there is no dot or either side of the split is empty, otherwise the
part after the last dot. -/
def extension (file_name : String) : Option String :=
  let split := rsplit1 '.' file_name
  if split.length < 2 ∨ (split.getD 0 "").length = 0 ∨ (split.getD 1 "").length = 0 then none
  else some (split.getD 1 "")

/-- The behaviour claimed by the spec for `extension`, written from its words:
the substring after the last `.` of the name, except `none` when the name has
no `.`, or the part before the last `.` is empty, or the part after it is
empty. -/
def extensionSpec (name : String) : Option String :=
  let cs := name.toList
  if '.' ∈ cs then
    let after := (cs.reverse.takeWhile (fun c => c ≠ '.')).reverse
    let before := cs.take (cs.length - after.length - 1)
    if before = [] ∨ after = [] then none else some (String.mk after)
  else none

example : extension "archive.tar.gz" = some "gz" := by decide
example : extension ".gitignore" = none := by decide
example : extension "name." = none := by decide
example : extension "plain" = none := by decide
example : extensionSpec "archive.tar.gz" = some "gz" := by decide
example : extensionSpec ".gitignore" = none := by decide

lemma takeWhile_eq_of_length_eq {α : Type} (p : α → Bool) (l : List α)
    (h : (l.takeWhile p).length = l.length) : l.takeWhile p = l := by
  have happ := List.takeWhile_append_dropWhile p l
  have hlen : (l.takeWhile p).length + (l.dropWhile p).length = l.length := by
    conv_rhs => rw [← happ]
    exact (List.length_append _ _).symm
  have hnil : l.dropWhile p = [] := List.eq_nil_of_length_eq_zero (by omega)
  conv_rhs => rw [← happ]
  rw [hnil, List.append_nil]

lemma rsplit1_of_not_mem (sep : Char) (s : String) (h : sep ∉ s.toList) :
    rsplit1 sep s = [s] := by
  have hall : s.toList.reverse.takeWhile (fun c => c ≠ sep) = s.toList.reverse := by
    rw [List.takeWhile_eq_self_iff]
    intro x hx
    have hxs : x ∈ s.toList := List.mem_reverse.mp hx
    have : x ≠ sep := fun he => h (he ▸ hxs)
    simpa using this
  have hlen : (s.toList.reverse.takeWhile (fun c => c ≠ sep)).length
      = s.toList.reverse.length := by rw [hall]
  show (if (s.toList.reverse.takeWhile (fun c => c ≠ sep)).length = s.toList.reverse.length
      then [s]
      else [String.mk ((s.toList.reverse.drop
              ((s.toList.reverse.takeWhile (fun c => c ≠ sep)).length + 1)).reverse),
            String.mk (s.toList.reverse.takeWhile (fun c => c ≠ sep)).reverse]) = [s]
  rw [if_pos hlen]

lemma rsplit1_of_mem (sep : Char) (s : String) (h : sep ∈ s.toList) :
    rsplit1 sep s =
      [String.mk (s.toList.take
          (s.toList.length - (s.toList.reverse.takeWhile (fun c => c ≠ sep)).reverse.length - 1)),
       String.mk (s.toList.reverse.takeWhile (fun c => c ≠ sep)).reverse] := by
  have hmem : sep ∈ s.toList.reverse := List.mem_reverse.mpr h
  have hne : ¬ ((s.toList.reverse.takeWhile (fun c => c ≠ sep)).length
      = s.toList.reverse.length) := by
    intro hlen
    have heq := takeWhile_eq_of_length_eq (fun c => c ≠ sep) s.toList.reverse hlen
    rw [List.takeWhile_eq_self_iff] at heq
    have := heq sep hmem
    simp at this
  have hdrop : s.toList.reverse.drop
        ((s.toList.reverse.takeWhile (fun c => c ≠ sep)).length + 1)
      = (s.toList.take
          (s.toList.length - (s.toList.reverse.takeWhile (fun c => c ≠ sep)).reverse.length - 1)).reverse := by
    rw [List.drop_reverse]
    congr 2
    rw [List.length_reverse]
    omega
  show (if (s.toList.reverse.takeWhile (fun c => c ≠ sep)).length = s.toList.reverse.length
      then [s]
      else [String.mk ((s.toList.reverse.drop
              ((s.toList.reverse.takeWhile (fun c => c ≠ sep)).length + 1)).reverse),
            String.mk (s.toList.reverse.takeWhile (fun c => c ≠ sep)).reverse]) = _
  rw [if_neg hne, hdrop, List.reverse_reverse]

lemma extension_pair (before after : List Char) :
    (if ([String.mk before, String.mk after].length < 2
        ∨ ([String.mk before, String.mk after].getD 0 "").length = 0
        ∨ ([String.mk before, String.mk after].getD 1 "").length = 0) then (none : Option String)
     else some ([String.mk before, String.mk after].getD 1 ""))
    = if before = [] ∨ after = [] then none else some (String.mk after) := by
  have hiff : ([String.mk before, String.mk after].length < 2
        ∨ ([String.mk before, String.mk after].getD 0 "").length = 0
        ∨ ([String.mk before, String.mk after].getD 1 "").length = 0)
      ↔ (before = [] ∨ after = []) := by
    simp [String.length_mk, List.length_eq_zero]
  rw [if_congr hiff rfl rfl]
  by_cases hc : before = [] ∨ after = []
  · rw [if_pos hc, if_pos hc]
  · rw [if_neg hc, if_neg hc]
    rfl

/-- C9: `extension(name)` returns the substring after the last `.` in `name`,
except it returns `none` when `name` contains no `.`, when the part before the
last `.` is empty, or when the part after the last `.` is empty. -/
theorem extension_matches_spec (name : String) : extension name = extensionSpec name := by
  by_cases h : '.' ∈ name.toList
  · show (let split := rsplit1 '.' name
      if split.length < 2 ∨ (split.getD 0 "").length = 0 ∨ (split.getD 1 "").length = 0
      then none else some (split.getD 1 "")) = extensionSpec name
    rw [rsplit1_of_mem '.' name h]
    show (if _ ∨ _ ∨ _ then _ else _) = extensionSpec name
    rw [extension_pair]
    show _ = (if '.' ∈ name.toList then _ else none)
    rw [if_pos h]
  · show (let split := rsplit1 '.' name
      if split.length < 2 ∨ (split.getD 0 "").length = 0 ∨ (split.getD 1 "").length = 0
      then none else some (split.getD 1 "")) = extensionSpec name
    rw [rsplit1_of_not_mem '.' name h]
    show (if ([name].length < 2 ∨ _ ∨ _) then (none : Option String) else _) = extensionSpec name
    rw [if_pos (Or.inl (by simp))]
    show _ = (if '.' ∈ name.toList then _ else none)
    rw [if_neg h]

/-! ## Errors

Modelled from the spec: `lightweight/errors.py` is imported by `site.py` but is
not among the sources; the spec's §7 error taxonomy supplies the variants.  The
two URL-validation failures in `_check_site_url` are raised in the source as
`ValueError`s; the spec files them under `InvalidSiteURL`. -/

inductive LWError where
  | absolutePathIncluded
  | includedDuplicate (loc : String)
  | fileNotFound (msg : String)
  | invalidSiteURL (msg : String)
  | valueErrorBadContentType
deriving DecidableEq

/-! ## Content and included content

Modelled from the spec: `lightweight/content/content_.py` (the `Content`
capability), `lightweight/content/copies_.py` (the `copy` constructor used for
glob/path includes) and `lightweight/included.py` (`IncludedContent`,
`Includes`) are imported by `site.py` but are not among the sources.  A
`Content` is opaque to the engine; the engine only distinguishes the copy-type
content it creates itself, so the model has a `copy` variant and an opaque
`renderer` variant. -/

inductive Content where
  | copy (source : String)
  | renderer (id : Nat)
deriving DecidableEq

/-- Modelled from the spec: `IncludedContent` binds an output `location`, a
`content` and the working directory `cwd` captured at include time. -/
structure IncludedContent where
  location : String
  content : Content
  cwd : String
deriving DecidableEq

/-- Modelled from the spec: `Includes` is an ordered mapping from location to
`IncludedContent`, kept here as the insertion-ordered list of its entries;
`Site._include` checks membership before every `add`, so `add` is plain
insertion at the end. -/
abbrev Includes := List IncludedContent

/-- Membership test `c.location in self.content` of `Site._include`. -/
def containsLoc (inc : Includes) (loc : String) : Bool :=
  inc.any (fun ic => ic.location = loc)

/-! ## URL parsing (model of `urllib.parse`)

`site.py` calls `urlparse` and `urljoin` from the Python standard library.
They are modelled here for hierarchical URLs, ignoring the query and fragment
components (never exercised by this development).  A documented property of
`urlparse` matters for `_check_site_url`: called without an explicit default
scheme it returns the scheme as a `str`, the empty string when the URL has
none — it never returns `None`.  The model therefore always produces `some`. -/

def isSchemeChar (c : Char) : Bool :=
  c.isAlphanum || c = '+' || c = '-' || c = '.'

/-- Split a URL into its scheme (lower-cased, `""` when absent) and the rest,
following `urllib.parse.urlparse`: the scheme is the part before the first
`:`, accepted only when it is nonempty, starts with a letter and has only
scheme characters. -/
def splitScheme (url : String) : String × String :=
  let cs := url.toList
  match cs.findIdx? (fun c => c = ':') with
  | some i =>
    if 0 < i ∧ (cs.take i).all isSchemeChar ∧ (cs.take 1).all Char.isAlpha then
      (String.mk ((cs.take i).map Char.toLower), String.mk (cs.drop (i + 1)))
    else ("", url)
  | none => ("", url)

/-- Model of the `scheme` attribute of `urllib.parse.urlparse(url)`: an
optional string that is in fact always present (empty when the URL carries no
scheme). -/
def urlparse_scheme (url : String) : Option String :=
  some (splitScheme url).1

/-- Split the scheme-less remainder of a URL into netloc (authority) and path,
as `urllib.parse` does: a remainder starting with `//` carries a netloc that
extends to the next `/`, `?` or `#`. -/
def splitNetloc (rest : String) : String × String :=
  let cs := rest.toList
  if cs.take 2 = ['/', '/'] then
    let after := cs.drop 2
    let nl := after.takeWhile (fun c => c ≠ '/' ∧ c ≠ '?' ∧ c ≠ '#')
    (String.mk nl, String.mk (after.drop nl.length))
  else ("", rest)

/-- Pop one output segment during dot-segment removal, never popping the root
marker (the empty segment produced by a leading slash). -/
def popSeg : List String → List String
  | [] => []
  | x :: xs => if xs = [] ∧ x = "" then x :: xs else xs

/-- Dot-segment removal over a segment list (output accumulated reversed). -/
def rdsAux : List String → List String → List String
  | acc, [] => acc.reverse
  | acc, ["."] => acc.reverse ++ [""]
  | acc, [".."] => (popSeg acc).reverse ++ [""]
  | acc, "." :: rest => rdsAux acc rest
  | acc, ".." :: rest => rdsAux (popSeg acc) rest
  | acc, s :: rest => rdsAux (s :: acc) rest

/-- Split a character list at every occurrence of `sep` (the list analogue of
`str.split(sep)`). -/
def splitChar (sep : Char) : List Char → List (List Char)
  | [] => [[]]
  | c :: rest =>
    if c = sep then [] :: splitChar sep rest
    else match splitChar sep rest with
      | [] => [[c]]
      | g :: gs => (c :: g) :: gs

/-- Join segments back with `/` separators. -/
def joinSegs : List String → String
  | [] => ""
  | [s] => s
  | s :: rest => s ++ "/" ++ joinSegs rest

/-- Remove `.` and `..` segments from a path, per RFC 3986 §5.2.4 as applied
by `urllib.parse.urljoin`. -/
def removeDotSegments (p : String) : String :=
  joinSegs (rdsAux [] ((splitChar '/' p.toList).map String.mk))

/-- Reassemble scheme, netloc and path into a URL string. -/
def unsplitURL (scheme netloc path : String) : String :=
  (if scheme = "" then "" else scheme ++ ":")
    ++ (if netloc = "" then "" else "//" ++ netloc) ++ path

/-- The path of the base URL up to and including its last `/` (empty when the
base path has no slash), used when merging a relative reference. -/
def dirOf (p : String) : String :=
  let cs := p.toList
  let tailChars := cs.reverse.takeWhile (fun c => c ≠ '/')
  String.mk (cs.take (cs.length - tailChars.length))

/-- Merge a relative reference with the base path, RFC 3986 §5.3. -/
def mergePaths (bnetloc bpath rel : String) : String :=
  if bnetloc ≠ "" ∧ bpath = "" then "/" ++ rel else dirOf bpath ++ rel

/-- Model of `urllib.parse.urljoin(base, url)` for hierarchical URLs (query
and fragment components are not modelled). -/
def urljoin (base url : String) : String :=
  let bs := splitScheme base
  let bn := splitNetloc bs.2
  let us := splitScheme url
  if us.1 ≠ "" ∧ us.1 ≠ bs.1 then url
  else
    let scheme := if us.1 ≠ "" then us.1 else bs.1
    let un := splitNetloc us.2
    if un.1 ≠ "" then unsplitURL scheme un.1 (removeDotSegments un.2)
    else if un.2 = "" then unsplitURL scheme bn.1 bn.2
    else if un.2.toList.take 1 = ['/'] then unsplitURL scheme bn.1 (removeDotSegments un.2)
    else unsplitURL scheme bn.1 (removeDotSegments (mergePaths bn.1 bn.2 un.2))

example : urljoin "https://example.org/" "a/b" = "https://example.org/a/b" := by decide
example : urljoin "https://example.org/" "/a/b" = "https://example.org/a/b" := by decide
example : urljoin "https://example.org/x/y.html" "../z" = "https://example.org/z" := by decide
example : splitScheme "example.org/" = ("", "example.org/") := by decide
example : splitScheme "https://example.org" = ("https", "//example.org") := by decide

/-! ## Site (`lightweight/site.py`) -/

/-- The `Site` object: `url`, optional `title`, and the `content` registry. -/
structure Site where
  url : String
  title : Option String
  content : Includes
deriving DecidableEq

/-- Embedding of `_check_site_url` (site.py lines 178-184): raise when
`urlparse(url).scheme is None`, then raise when the URL does not end with a
forward slash, otherwise return the URL unchanged.  The two `ValueError`s are
the spec's `InvalidSiteURL`. -/
def _check_site_url (url : String) : Except LWError String :=
  if (urlparse_scheme url).isNone then
    Except.error (LWError.invalidSiteURL "Missing scheme in Site URL.")
  else if ¬ (url.toList.reverse.take 1 = ['/']) then
    Except.error (LWError.invalidSiteURL
      ("Site URL (" ++ url ++ ") must end with a forward slash (/)."))
  else Except.ok url

/-- Embedding of `Site.__init__`: validates the URL, stores the title, and
uses the provided registry or a fresh empty one (`Includes() if not content
else content`; an explicitly passed empty registry is falsy in Python and is
replaced by a fresh empty one, which is the same value here). -/
def mkSite (url : String) (title : Option String) (content : Option Includes) :
    Except LWError Site :=
  match _check_site_url url with
  | Except.error e => Except.error e
  | Except.ok u => Except.ok { url := u, title := title, content := content.getD [] }

/-- Embedding of `Site.__truediv__`: `urljoin(self.url, location)`. -/
def truediv (s : Site) (location : String) : String :=
  urljoin s.url location

/-! ## Filesystem abstraction

`Site.include` consults the filesystem through `iglob` (via `files.paths`) and
`Path.exists`; both are abstracted as an environment so that the pure include
logic can be stated for every filesystem. -/

structure FS where
  glob : String → List String
  pathExists : String → Bool

/-- Embedding of `Site._include` (site.py lines 115-118): raise
`IncludedDuplicate` when the location is already registered, otherwise add. -/
def _include (s : Site) (c : IncludedContent) : Except LWError Site :=
  if containsLoc s.content c.location then
    Except.error (LWError.includedDuplicate c.location)
  else Except.ok { s with content := s.content ++ [c] }

/-- Embedding of `Site._include_content`: wrap location, content and cwd into
an `IncludedContent` and delegate to `_include`. -/
def _include_content (s : Site) (location : String) (content : Content)
    (cwd : String) : Except LWError Site :=
  _include s { location := location, content := content, cwd := cwd }

/-- The three runtime shapes of the `content` argument of `Site.include`
(`None`, a `Content`, or a source-path string; any other type raises
`ValueError` and is unrepresentable here). -/
inductive IncludeArg where
  | omitted
  | contentArg (c : Content)
  | sourceArg (path : String)
deriving DecidableEq

/-- Key-deduplication worker: drop every pair whose key was already seen. -/
def dedupKeysAux (seen : List String) : List (String × Content) → List (String × Content)
  | [] => []
  | (p, c) :: rest =>
    if p ∈ seen then dedupKeysAux seen rest
    else (p, c) :: dedupKeysAux (p :: seen) rest

/-- Key-deduplication of the dict comprehension
`{str(path): copy(path) for path in paths(location)}`: a Python dict keeps the
first insertion position of a key; here every repeated key also carries the
identical value `copy(path)`, so keeping the first occurrence is the dict's
behaviour. -/
def dedupKeys (l : List (String × Content)) : List (String × Content) :=
  dedupKeysAux [] l

/-- The iteration `[self._include_content(path, content_, cwd) for path,
content_ in contents.items()]`: registers each pair in order; a raised
`IncludedDuplicate` aborts the loop, KEEPING the registrations already made on
the returned (mutated) site. -/
def includeAll (s : Site) (cwd : String) : List (String × Content) →
    Except LWError Unit × Site
  | [] => (Except.ok (), s)
  | (p, c) :: rest =>
    match _include_content s p c cwd with
    | Except.error e => (Except.error e, s)
    | Except.ok s' => includeAll s' cwd rest

/-- The `content is None` branch of `Site.include`: build the dict of glob
matches (written out twice here where the source binds it once — it is a pure
value), raise `FileNotFoundError` when it is empty, then register every
matched path in dict order. -/
def includeOmitted (fs : FS) (cwd : String) (s : Site) (location : String) :
    Except LWError Unit × Site :=
  if (dedupKeys ((fs.glob location).map (fun p => (p, Content.copy p)))).length = 0 then
    (Except.error (LWError.fileNotFound
      ("There were no files at paths: " ++ location)), s)
  else includeAll s cwd (dedupKeys ((fs.glob location).map (fun p => (p, Content.copy p))))

/-- The `isinstance(content, Content)` branch of `Site.include`: one
`_include_content` call; a raise leaves the site as it was. -/
def includeContentArg (cwd : String) (s : Site) (location : String) (c : Content) :
    Except LWError Unit × Site :=
  match _include_content s location c cwd with
  | Except.error e => (Except.error e, s)
  | Except.ok s' => (Except.ok (), s')

/-- The `isinstance(content, str)` branch of `Site.include`: check the source
exists, then register a copy of it (the same `_include_content` call shape as
the explicit-content branch). -/
def includeSourceArg (fs : FS) (cwd : String) (s : Site) (location : String)
    (src : String) : Except LWError Unit × Site :=
  if ¬ fs.pathExists src then
    (Except.error (LWError.fileNotFound ("File does not exist: " ++ src)), s)
  else includeContentArg cwd s location (Content.copy src)

/-- Embedding of `Site.include` (site.py lines 77-104).  The mutable `self` is
threaded explicitly: the result pairs the raised-or-ok outcome with the site
as it stands when the call returns or raises (mutations made before a raise
are kept, as in the source).  `cwd` stands for the `getcwd()` call and `fs`
for the filesystem. -/
def Site.include (fs : FS) (cwd : String) (s : Site) (location : String)
    (arg : IncludeArg) : Except LWError Unit × Site :=
  if location.toList.take 1 = ['/'] then (Except.error LWError.absolutePathIncluded, s)
  else match arg with
  | IncludeArg.omitted => includeOmitted fs cwd s location
  | IncludeArg.contentArg c => includeContentArg cwd s location c
  | IncludeArg.sourceArg src => includeSourceArg fs cwd s location src

/-! ## Generation (`Site._generate`, site.py lines 133-155)

Modelled collaborators: `GenTask` comes from `lightweight/generation.py` and
the `directory` context manager from `lightweight/files.py`, both imported by
`site.py` but not among the sources; they are modelled from the spec
(`GenTask` carries the content, the target path and the cwd of its originating
`IncludedContent`; `directory(cwd)` changes the process working directory on
entry and restores the previous one on exit).

The write outcome of a task (`task.content.write(task.path, task.ctx)`) is an
external renderer call and is abstracted as a function `w` from tasks to
results.  Task expansion (`ic.make_tasks(ctx)`) is likewise abstracted as a
function `mk` from included content to task lists. -/

/-- Modelled from the spec: a `GenTask` from `lightweight/generation.py`. -/
structure GenTask where
  content : Content
  path : String
  cwd : String
deriving DecidableEq

/-- Key order of the `defaultdict(list)` built by `Site._generate`: the
distinct `task.cwd` values in order of first appearance. -/
def groupKeys (ts : List GenTask) : List String :=
  ts.foldl (fun acc t => if t.cwd ∈ acc then acc else acc ++ [t.cwd]) []

/-- The cwd-groups of `Site._generate`: `tasks[task.cwd].append(task)` keyed
in first-appearance order, every bucket in original task order. -/
def cwdGroups (ts : List GenTask) : List (String × List GenTask) :=
  (groupKeys ts).map (fun c => (c, ts.filter (fun t => t.cwd = c)))

/-- The flat `all_tasks` list of `Site._generate`: every included content
expanded by `make_tasks`, concatenated in registry order. -/
def allTasks (mk : IncludedContent → List GenTask) (inc : Includes) : List GenTask :=
  inc.flatMap mk

/-- One cwd-group's write phase (`loop.run_until_complete(gather(*writes))`):
all tasks of the group are dispatched; a failing write makes the whole group
surface that failure. -/
def writeGroup (w : GenTask → Except String Unit) : List GenTask → Except String Unit
  | [] => Except.ok ()
  | t :: rest =>
    match w t with
    | Except.error e => Except.error e
    | Except.ok _ => writeGroup w rest

/-- The group loop of `Site._generate`: each cwd-group in turn, under its
directory; an exception escaping a group propagates out of the whole call. -/
def runGroups (w : GenTask → Except String Unit) :
    List (String × List GenTask) → Except String Unit
  | [] => Except.ok ()
  | (_, g) :: rest =>
    match writeGroup w g with
    | Except.error e => Except.error e
    | Except.ok _ => runGroups w rest

/-- Embedding of `Site._generate`: expand, group by cwd, run the groups. -/
def _generate (w : GenTask → Except String Unit)
    (mk : IncludedContent → List GenTask) (inc : Includes) : Except String Unit :=
  runGroups w (cwdGroups (allTasks mk inc))

/-! ### Event trace of the write phase

The claims about working directories are stated over an explicit event trace
of one generate run: entering `directory(cwd)` emits a change-directory event,
every task write emits a write event, leaving the context manager emits the
restoring change-directory event (back to `base`, the directory the process
was in when `generate` was called; the groups run sequentially, so that is the
saved directory at every group entry). -/

inductive Ev where
  | chdir (d : String)
  | writes (t : GenTask)
deriving DecidableEq

/-- The events of one cwd-group: set the directory, write every task of the
group, restore the previous directory. -/
def groupEvents (base c : String) (g : List GenTask) : List Ev :=
  (Ev.chdir c :: g.map Ev.writes) ++ [Ev.chdir base]

/-- The full event trace of the write phase of one generate run. -/
def genEvents (base : String) (ts : List GenTask) : List Ev :=
  (cwdGroups ts).flatMap (fun p => groupEvents base p.1 p.2)

/-- Annotate every event with the process working directory in force when it
happens, starting from directory `d`. -/
def annotate (d : String) : List Ev → List (String × Ev)
  | [] => []
  | Ev.chdir c :: rest => (c, Ev.chdir c) :: annotate c rest
  | Ev.writes t :: rest => (d, Ev.writes t) :: annotate d rest

/-- The working directory after a list of events has run, starting from `d`. -/
def lastDir (d : String) : List Ev → String
  | [] => d
  | Ev.chdir c :: rest => lastDir c rest
  | Ev.writes _ :: rest => lastDir d rest

/-! ## Theorems -/

/-- C2: the claim fails on the code.  Constructing a `Site` whose url string
has no URI scheme does NOT fail: `urlparse('example.org/').scheme` is the
empty string, never `None`, so the `scheme is None` branch of
`_check_site_url` is dead and `Site(url='example.org/')` is constructed
successfully, where the spec requires an `InvalidSiteURL` failure.  The error
message of the dead branch ("Missing scheme in Site URL.") shows the intent;
the code is the slip.  This theorem evaluates the constructor at the failing
input. -/
theorem mkSite_accepts_missing_scheme :
    mkSite "example.org/" none none
      = Except.ok { url := "example.org/", title := none, content := [] } := rfl

/-- The scheme check of `_check_site_url` can never fire: `urlparse` always
returns a string scheme. -/
theorem urlparse_scheme_never_none (url : String) : (urlparse_scheme url).isNone = false := rfl

/-- C7: constructing a Site whose url does not end with `/` fails at
construction (a pure check, before any generation-time I/O) with the
`InvalidSiteURL` validation error. -/
theorem mkSite_requires_trailing_slash (url : String) (title : Option String)
    (content : Option Includes) (h : ¬ url.toList.reverse.take 1 = ['/']) :
    mkSite url title content
      = Except.error (LWError.invalidSiteURL
          ("Site URL (" ++ url ++ ") must end with a forward slash (/).")) := by
  unfold mkSite _check_site_url urlparse_scheme
  rw [if_neg (by simp), if_pos h]

theorem mkSite_requires_trailing_slash_witness :
    mkSite "https://example.org" none none
      = Except.error (LWError.invalidSiteURL
          ("Site URL (https://example.org) must end with a forward slash (/).")) :=
  mkSite_requires_trailing_slash "https://example.org" none none (by decide)

/-- C6: for a Site constructed with url `https://example.org/`, the `/`
operator resolves by relative-URL-join rules: `site / 'a/b'` is
`https://example.org/a/b`, and the absolute-path location `/a/b` is joined
against the URL's origin, giving the same `https://example.org/a/b` rather
than a concatenation. -/
theorem truediv_resolves_by_url_join :
    (mkSite "https://example.org/" none none).map (fun s => truediv s "a/b")
        = Except.ok "https://example.org/a/b"
    ∧ (mkSite "https://example.org/" none none).map (fun s => truediv s "/a/b")
        = Except.ok "https://example.org/a/b" :=
  ⟨rfl, rfl⟩

/-- C3: including any location that starts with `/`, whatever the content
argument, fails with `AbsolutePathIncluded` and returns the site with its
registry untouched. -/
theorem include_absolute_path_rejected (fs : FS) (cwd : String) (s : Site)
    (location : String) (arg : IncludeArg) (h : location.toList.take 1 = ['/']) :
    Site.include fs cwd s location arg = (Except.error LWError.absolutePathIncluded, s) := by
  unfold Site.include
  rw [if_pos h]

theorem include_absolute_path_rejected_witness :
    Site.include ⟨fun _ => [], fun _ => false⟩ "/work"
        { url := "https://example.org/", title := none, content := [] }
        "/etc" IncludeArg.omitted
      = (Except.error LWError.absolutePathIncluded,
         { url := "https://example.org/", title := none, content := [] }) :=
  include_absolute_path_rejected _ _ _ _ _ (by decide)

/-! ### Registry-invariant lemmas (C1, C8, C10) -/

/-- The uniqueness invariant over a registry: no two entries share a
location. -/
def RegistryUnique (inc : Includes) : Prop :=
  (inc.map (fun ic => ic.location)).Nodup

lemma containsLoc_append_one (inc : Includes) (c : IncludedContent) (loc : String)
    (h : containsLoc inc loc = true) : containsLoc (inc ++ [c]) loc = true := by
  unfold containsLoc at h ⊢
  rw [List.any_append, h, Bool.true_or]

lemma _include_error_of_contains (s : Site) (c : IncludedContent)
    (h : containsLoc s.content c.location = true) :
    _include s c = Except.error (LWError.includedDuplicate c.location) := by
  unfold _include
  rw [if_pos h]

lemma _include_ok_unique (s : Site) (c : IncludedContent) (s' : Site)
    (hu : RegistryUnique s.content) (h : _include s c = Except.ok s') :
    RegistryUnique s'.content := by
  unfold _include at h
  by_cases hc : containsLoc s.content c.location = true
  · rw [if_pos hc] at h
    exact absurd h (by simp)
  · rw [if_neg hc] at h
    have hs' : s' = { s with content := s.content ++ [c] } := by
      injection h with h2
      exact h2.symm
    subst hs'
    unfold RegistryUnique at hu ⊢
    rw [List.map_append]
    rw [List.nodup_append]
    refine ⟨hu, by simp, ?_⟩
    intro x hx
    simp only [List.map_cons, List.map_nil, List.mem_singleton]
    intro hxl
    subst hxl
    have : containsLoc s.content c.location = true := by
      unfold containsLoc
      rw [List.any_eq_true]
      simp only [List.mem_map] at hx
      obtain ⟨ic, hic, hloc⟩ := hx
      exact ⟨ic, hic, by simp [hloc]⟩
    exact hc this

lemma _include_ok_content (s : Site) (c : IncludedContent) (s' : Site)
    (h : _include s c = Except.ok s') : s'.content = s.content ++ [c] := by
  unfold _include at h
  by_cases hc : containsLoc s.content c.location = true
  · rw [if_pos hc] at h
    exact absurd h (by simp)
  · rw [if_neg hc] at h
    injection h with h2
    rw [← h2]

lemma includeAll_unique (cwd : String) :
    ∀ (l : List (String × Content)) (s : Site), RegistryUnique s.content →
      RegistryUnique (includeAll s cwd l).2.content
  | [], s, hu => hu
  | (p, c) :: rest, s, hu => by
    unfold includeAll
    cases h : _include_content s p c cwd with
    | error e => exact hu
    | ok s' =>
      exact includeAll_unique cwd rest s' (_include_ok_unique s _ s' hu h)

lemma includeAll_content_grows (cwd : String) :
    ∀ (l : List (String × Content)) (s : Site),
      ∃ suff, (includeAll s cwd l).2.content = s.content ++ suff
  | [], s => ⟨[], by simp [includeAll]⟩
  | (p, c) :: rest, s => by
    unfold includeAll
    cases h : _include_content s p c cwd with
    | error e => exact ⟨[], by simp⟩
    | ok s' =>
      obtain ⟨suff, hs⟩ := includeAll_content_grows cwd rest s'
      refine ⟨⟨p, c, cwd⟩ :: suff, ?_⟩
      rw [hs, _include_ok_content s _ s' h, List.append_assoc]
      rfl

lemma includeAll_error_of_contains (cwd : String) :
    ∀ (l : List (String × Content)) (s : Site),
      (∃ p ∈ l.map Prod.fst, containsLoc s.content p = true) →
      ∃ q, (includeAll s cwd l).1 = Except.error (LWError.includedDuplicate q)
  | [], s, h => by simp at h
  | (p, c) :: rest, s, h => by
    unfold includeAll
    by_cases hc : containsLoc s.content p = true
    · rw [show _include_content s p c cwd
          = Except.error (LWError.includedDuplicate p) from
          _include_error_of_contains s _ hc]
      exact ⟨p, rfl⟩
    · cases hin : _include_content s p c cwd with
      | error e =>
        unfold _include_content _include at hin
        rw [if_neg hc] at hin
        exact absurd hin (by simp)
      | ok s' =>
        obtain ⟨q, hq, hqc⟩ := h
        simp only [List.map_cons, List.mem_cons] at hq
        have hq' : q ∈ rest.map Prod.fst := by
          cases hq with
          | inl he => exact absurd (he ▸ hqc) hc
          | inr hm => exact hm
        have hmono : containsLoc s'.content q = true := by
          rw [_include_ok_content s _ s' hin]
          exact containsLoc_append_one _ _ _ hqc
        exact includeAll_error_of_contains cwd rest s' ⟨q, hq', hmono⟩

lemma dedupKeysAux_fst_mem :
    ∀ (l : List (String × Content)) (seen : List String) (k : String),
      k ∈ l.map Prod.fst → k ∉ seen → k ∈ (dedupKeysAux seen l).map Prod.fst
  | [], _, _, h, _ => absurd h (by simp)
  | (p, c) :: rest, seen, k, h, hk => by
    unfold dedupKeysAux
    by_cases hps : p ∈ seen
    · rw [if_pos hps]
      have hrest : k ∈ rest.map Prod.fst := by
        simp only [List.map_cons, List.mem_cons] at h
        cases h with
        | inl he => exact absurd (he ▸ hps) hk
        | inr hm => exact hm
      exact dedupKeysAux_fst_mem rest seen k hrest hk
    · rw [if_neg hps]
      simp only [List.map_cons, List.mem_cons] at h ⊢
      cases h with
      | inl he => exact Or.inl he
      | inr hm =>
        by_cases hkp : k = p
        · exact Or.inl hkp
        · refine Or.inr (dedupKeysAux_fst_mem rest (p :: seen) k hm ?_)
          intro hcon
          cases List.mem_cons.mp hcon with
          | inl he => exact hkp he
          | inr hm2 => exact hk hm2

lemma dedupKeysAux_copy_mem :
    ∀ (l : List String) (seen : List String) (p : String),
      p ∈ l → p ∉ seen →
      (p, Content.copy p) ∈ dedupKeysAux seen (l.map (fun x => (x, Content.copy x)))
  | [], _, _, h, _ => absurd h (by simp)
  | x :: tl, seen, p, h, hp => by
    simp only [List.map_cons]
    unfold dedupKeysAux
    by_cases hxs : x ∈ seen
    · rw [if_pos hxs]
      have hmem : p ∈ tl := by
        cases List.mem_cons.mp h with
        | inl he => exact absurd (he ▸ hxs) hp
        | inr hm => exact hm
      exact dedupKeysAux_copy_mem tl seen p hmem hp
    · rw [if_neg hxs]
      by_cases hpx : p = x
      · subst hpx
        exact List.mem_cons_self _ _
      · have hmem : p ∈ tl := by
          cases List.mem_cons.mp h with
          | inl he => exact absurd he hpx
          | inr hm => exact hm
        refine List.mem_cons_of_mem _ (dedupKeysAux_copy_mem tl (x :: seen) p hmem ?_)
        intro hcon
        cases List.mem_cons.mp hcon with
        | inl he => exact hpx he
        | inr hm2 => exact hp hm2

lemma dedupKeys_fst_mem (l : List (String × Content)) (k : String)
    (h : k ∈ l.map Prod.fst) : k ∈ (dedupKeys l).map Prod.fst :=
  dedupKeysAux_fst_mem l [] k h (by simp)

lemma dedupKeys_cons_length (x : String × Content) (l : List (String × Content)) :
    ¬ (dedupKeys (x :: l)).length = 0 := by
  cases x with
  | mk p c =>
    unfold dedupKeys dedupKeysAux
    simp

lemma include_eq_omitted (fs : FS) (cwd : String) (s : Site) (location : String)
    (habs : ¬ location.toList.take 1 = ['/']) :
    Site.include fs cwd s location IncludeArg.omitted = includeOmitted fs cwd s location := by
  unfold Site.include
  rw [if_neg habs]

lemma include_eq_contentArg (fs : FS) (cwd : String) (s : Site) (location : String)
    (c : Content) (habs : ¬ location.toList.take 1 = ['/']) :
    Site.include fs cwd s location (IncludeArg.contentArg c)
      = includeContentArg cwd s location c := by
  unfold Site.include
  rw [if_neg habs]

lemma include_eq_sourceArg (fs : FS) (cwd : String) (s : Site) (location : String)
    (src : String) (habs : ¬ location.toList.take 1 = ['/']) :
    Site.include fs cwd s location (IncludeArg.sourceArg src)
      = includeSourceArg fs cwd s location src := by
  unfold Site.include
  rw [if_neg habs]

/-- C1: within one Site the registry never holds two entries with the same
location.  For a site whose registry satisfies the uniqueness invariant,
(i) every `include` call — explicit `Content`, source-path string, or glob —
leaves the registry unique again, whatever its outcome; (ii) an explicit-
content include at an already-registered location fails with
`IncludedDuplicate`; (iii) so does a source-path include when the source
exists; and (iv) a glob include one of whose matched locations is already
registered fails with `IncludedDuplicate` as well. -/
theorem include_enforces_unique_locations (fs : FS) (cwd : String) (s : Site)
    (hu : RegistryUnique s.content) :
    (∀ location arg, RegistryUnique (Site.include fs cwd s location arg).2.content)
    ∧ (∀ location c, ¬ location.toList.take 1 = ['/'] →
        containsLoc s.content location = true →
        (Site.include fs cwd s location (IncludeArg.contentArg c)).1
          = Except.error (LWError.includedDuplicate location))
    ∧ (∀ location src, ¬ location.toList.take 1 = ['/'] → fs.pathExists src = true →
        containsLoc s.content location = true →
        (Site.include fs cwd s location (IncludeArg.sourceArg src)).1
          = Except.error (LWError.includedDuplicate location))
    ∧ (∀ pattern, ¬ pattern.toList.take 1 = ['/'] →
        (∃ p ∈ fs.glob pattern, containsLoc s.content p = true) →
        ∃ q, (Site.include fs cwd s pattern IncludeArg.omitted).1
          = Except.error (LWError.includedDuplicate q)) := by
  have hContent : ∀ location c, RegistryUnique (includeContentArg cwd s location c).2.content := by
    intro location c
    unfold includeContentArg
    cases h : _include_content s location c cwd with
    | error e => exact hu
    | ok s' => exact _include_ok_unique s _ s' hu h
  refine ⟨?_, ?_, ?_, ?_⟩
  · intro location arg
    by_cases habs : location.toList.take 1 = ['/']
    · unfold Site.include
      rw [if_pos habs]
      exact hu
    · cases arg with
      | omitted =>
        rw [include_eq_omitted fs cwd s location habs]
        unfold includeOmitted
        by_cases hlen : (dedupKeys ((fs.glob location).map
            (fun p => (p, Content.copy p)))).length = 0
        · rw [if_pos hlen]
          exact hu
        · rw [if_neg hlen]
          exact includeAll_unique cwd _ s hu
      | contentArg c =>
        rw [include_eq_contentArg fs cwd s location c habs]
        exact hContent location c
      | sourceArg src =>
        rw [include_eq_sourceArg fs cwd s location src habs]
        unfold includeSourceArg
        by_cases hex : fs.pathExists src = true
        · rw [if_neg (by simp [hex])]
          exact hContent location (Content.copy src)
        · rw [if_pos (by simpa using hex)]
          exact hu
  · intro location c habs hc
    rw [include_eq_contentArg fs cwd s location c habs]
    unfold includeContentArg
    rw [show _include_content s location c cwd
        = Except.error (LWError.includedDuplicate location) from
      _include_error_of_contains s _ hc]
  · intro location src habs hex hc
    rw [include_eq_sourceArg fs cwd s location src habs]
    unfold includeSourceArg includeContentArg
    rw [if_neg (by simp [hex])]
    rw [show _include_content s location (Content.copy src) cwd
        = Except.error (LWError.includedDuplicate location) from
      _include_error_of_contains s _ hc]
  · intro pattern habs hc
    obtain ⟨p, hp, hpc⟩ := hc
    rw [include_eq_omitted fs cwd s pattern habs]
    unfold includeOmitted
    have hglob : ∃ y ys, fs.glob pattern = y :: ys := by
      cases hg : fs.glob pattern with
      | nil => rw [hg] at hp; cases hp
      | cons y ys => exact ⟨y, ys, rfl⟩
    obtain ⟨y, ys, hg⟩ := hglob
    rw [if_neg (by rw [hg, List.map_cons]; exact dedupKeys_cons_length _ _)]
    refine includeAll_error_of_contains cwd _ s ⟨p, ?_, hpc⟩
    apply dedupKeys_fst_mem
    have hid : ((fs.glob pattern).map (fun q => (q, Content.copy q))).map Prod.fst
        = fs.glob pattern := by
      rw [List.map_map]
      exact List.map_id _
    rw [hid]
    exact hp

theorem include_enforces_unique_locations_witness :
    (Site.include ⟨fun _ => [], fun _ => true⟩ "/work"
        { url := "https://example.org/", title := none,
          content := [{ location := "page", content := Content.renderer 0, cwd := "/work" }] }
        "page" (IncludeArg.contentArg (Content.renderer 1))).1
      = Except.error (LWError.includedDuplicate "page") :=
  (include_enforces_unique_locations ⟨fun _ => [], fun _ => true⟩ "/work"
      { url := "https://example.org/", title := none,
        content := [{ location := "page", content := Content.renderer 0, cwd := "/work" }] }
      (by unfold RegistryUnique; decide)).2.1
    "page" (Content.renderer 1) (by decide) (by decide)

lemma includeAll_ok_mem (cwd : String) :
    ∀ (l : List (String × Content)) (s : Site),
      (includeAll s cwd l).1 = Except.ok () →
      ∀ pc ∈ l,
        ({ location := pc.1, content := pc.2, cwd := cwd } : IncludedContent)
          ∈ (includeAll s cwd l).2.content
  | [], _, _, _, hpc => absurd hpc (by simp)
  | (p, c) :: rest, s, hok, pc, hpc => by
    unfold includeAll at hok ⊢
    cases h : _include_content s p c cwd with
    | error e =>
      rw [h] at hok
      exact absurd hok (by simp)
    | ok s' =>
      rw [h] at hok
      replace hok : (includeAll s' cwd rest).1 = Except.ok () := hok
      cases List.mem_cons.mp hpc with
      | inl he =>
        subst he
        obtain ⟨suff, hsuff⟩ := includeAll_content_grows cwd rest s'
        show ({ location := p, content := c, cwd := cwd } : IncludedContent)
          ∈ (includeAll s' cwd rest).2.content
        rw [hsuff, _include_ok_content s _ s' h]
        rw [List.append_assoc]
        exact List.mem_append_right _ (List.mem_append_left _ (List.mem_singleton.mpr rfl))
      | inr hm =>
        show ({ location := pc.1, content := pc.2, cwd := cwd } : IncludedContent)
          ∈ (includeAll s' cwd rest).2.content
        exact includeAll_ok_mem cwd rest s' hok pc hm

/-- C8: with the content argument omitted, the location is a glob pattern:
when the pattern matches nothing the call fails with `FileNotFoundError` and
the registry is untouched; when the call returns successfully, every matched
filesystem path is registered as a copy-type content whose location is that
matched path. -/
theorem include_glob_registers_matches (fs : FS) (cwd : String) (s : Site)
    (pattern : String) (habs : ¬ pattern.toList.take 1 = ['/']) :
    (fs.glob pattern = [] →
      Site.include fs cwd s pattern IncludeArg.omitted
        = (Except.error (LWError.fileNotFound
            ("There were no files at paths: " ++ pattern)), s))
    ∧ ((Site.include fs cwd s pattern IncludeArg.omitted).1 = Except.ok () →
      ∀ p ∈ fs.glob pattern,
        ({ location := p, content := Content.copy p, cwd := cwd } : IncludedContent)
          ∈ (Site.include fs cwd s pattern IncludeArg.omitted).2.content) := by
  rw [include_eq_omitted fs cwd s pattern habs]
  constructor
  · intro hg
    unfold includeOmitted
    rw [hg]
    rfl
  · intro hok p hp
    unfold includeOmitted at hok ⊢
    by_cases hlen : (dedupKeys ((fs.glob pattern).map
        (fun q => (q, Content.copy q)))).length = 0
    · rw [if_pos hlen] at hok
      exact absurd hok (by simp)
    · rw [if_neg hlen] at hok ⊢
      exact includeAll_ok_mem cwd _ s hok (p, Content.copy p)
        (dedupKeysAux_copy_mem (fs.glob pattern) [] p hp (by simp))

theorem include_glob_registers_matches_witness :
    (Site.include ⟨fun pat => if pat = "img/*" then ["img/a.png", "img/b.png"] else [],
          fun _ => true⟩ "/work"
        { url := "https://example.org/", title := none, content := [] }
        "img/*" IncludeArg.omitted).2.content
      = [{ location := "img/a.png", content := Content.copy "img/a.png", cwd := "/work" },
         { location := "img/b.png", content := Content.copy "img/b.png", cwd := "/work" }]
    ∧ ({ location := "img/a.png", content := Content.copy "img/a.png", cwd := "/work" }
          : IncludedContent)
        ∈ (Site.include ⟨fun pat => if pat = "img/*" then ["img/a.png", "img/b.png"] else [],
              fun _ => true⟩ "/work"
            { url := "https://example.org/", title := none, content := [] }
            "img/*" IncludeArg.omitted).2.content :=
  ⟨by decide,
   (include_glob_registers_matches
      ⟨fun pat => if pat = "img/*" then ["img/a.png", "img/b.png"] else [], fun _ => true⟩
      "/work" { url := "https://example.org/", title := none, content := [] }
      "img/*" (by decide)).2 rfl "img/a.png" (by decide)⟩

/-- C10: the glob form of `include` is not atomic.  Concretely: a site whose
registry already holds location `b`, included with a glob matching `a` then
`b`, raises `IncludedDuplicate` — yet the matched path `a`, processed before
the duplicate was hit, stays registered: the call fails and the registry has
still changed. -/
theorem include_glob_not_atomic :
    (Site.include ⟨fun _ => ["a", "b"], fun _ => true⟩ "/work"
        { url := "https://example.org/", title := none,
          content := [{ location := "b", content := Content.renderer 0, cwd := "/d" }] }
        "stuff/*" IncludeArg.omitted).1
      = Except.error (LWError.includedDuplicate "b")
    ∧ (Site.include ⟨fun _ => ["a", "b"], fun _ => true⟩ "/work"
        { url := "https://example.org/", title := none,
          content := [{ location := "b", content := Content.renderer 0, cwd := "/d" }] }
        "stuff/*" IncludeArg.omitted).2.content
      = [{ location := "b", content := Content.renderer 0, cwd := "/d" },
         { location := "a", content := Content.copy "a", cwd := "/work" }]
    ∧ (Site.include ⟨fun _ => ["a", "b"], fun _ => true⟩ "/work"
        { url := "https://example.org/", title := none,
          content := [{ location := "b", content := Content.renderer 0, cwd := "/d" }] }
        "stuff/*" IncludeArg.omitted).2.content
      ≠ [{ location := "b", content := Content.renderer 0, cwd := "/d" }] :=
  ⟨rfl, by decide, by decide⟩

/-! ### Generation lemmas (C4, C5) -/

lemma writeGroup_ok (w : GenTask → Except String Unit) :
    ∀ (g : List GenTask), writeGroup w g = Except.ok () →
      ∀ t ∈ g, w t = Except.ok ()
  | [], _, t, ht => absurd ht (by simp)
  | t0 :: rest, hok, t, ht => by
    unfold writeGroup at hok
    cases h : w t0 with
    | error e =>
      rw [h] at hok
      exact absurd hok (by simp)
    | ok u =>
      rw [h] at hok
      replace hok : writeGroup w rest = Except.ok () := hok
      cases List.mem_cons.mp ht with
      | inl he =>
        subst he
        cases u
        exact h
      | inr hm => exact writeGroup_ok w rest hok t hm

lemma runGroups_ok (w : GenTask → Except String Unit) :
    ∀ (gs : List (String × List GenTask)), runGroups w gs = Except.ok () →
      ∀ p ∈ gs, ∀ t ∈ p.2, w t = Except.ok ()
  | [], _, p, hp, _, _ => absurd hp (by simp)
  | (c, g) :: rest, hok, p, hp, t, ht => by
    unfold runGroups at hok
    cases h : writeGroup w g with
    | error e =>
      rw [h] at hok
      exact absurd hok (by simp)
    | ok u =>
      rw [h] at hok
      replace hok : runGroups w rest = Except.ok () := hok
      cases List.mem_cons.mp hp with
      | inl he =>
        subst he
        cases u
        exact writeGroup_ok w g h t ht
      | inr hm => exact runGroups_ok w rest hok p hm t ht

lemma foldl_keys_mono (f : List String → GenTask → List String)
    (hf : f = fun acc t => if t.cwd ∈ acc then acc else acc ++ [t.cwd]) :
    ∀ (ts : List GenTask) (acc : List String) (c : String),
      c ∈ acc → c ∈ ts.foldl f acc
  | [], _, _, hc => hc
  | t0 :: rest, acc, c, hc => by
    rw [List.foldl_cons]
    refine foldl_keys_mono f hf rest _ c ?_
    simp only [hf]
    by_cases ht : t0.cwd ∈ acc
    · rw [if_pos ht]
      exact hc
    · rw [if_neg ht]
      exact List.mem_append_left _ hc

lemma foldl_keys_complete (f : List String → GenTask → List String)
    (hf : f = fun acc t => if t.cwd ∈ acc then acc else acc ++ [t.cwd]) :
    ∀ (ts : List GenTask) (acc : List String) (t : GenTask),
      t ∈ ts → t.cwd ∈ ts.foldl f acc
  | [], _, _, ht => absurd ht (by simp)
  | t0 :: rest, acc, t, ht => by
    rw [List.foldl_cons]
    cases List.mem_cons.mp ht with
    | inl he =>
      subst he
      refine foldl_keys_mono f hf rest _ t.cwd ?_
      simp only [hf]
      by_cases hc : t.cwd ∈ acc
      · rw [if_pos hc]
        exact hc
      · rw [if_neg hc]
        exact List.mem_append_right _ (by simp)
    | inr hm => exact foldl_keys_complete f hf rest _ t hm

lemma foldl_keys_nodup (f : List String → GenTask → List String)
    (hf : f = fun acc t => if t.cwd ∈ acc then acc else acc ++ [t.cwd]) :
    ∀ (ts : List GenTask) (acc : List String), acc.Nodup → (ts.foldl f acc).Nodup
  | [], _, ha => ha
  | t0 :: rest, acc, ha => by
    rw [List.foldl_cons]
    refine foldl_keys_nodup f hf rest _ ?_
    simp only [hf]
    by_cases ht : t0.cwd ∈ acc
    · rw [if_pos ht]
      exact ha
    · rw [if_neg ht]
      rw [List.nodup_append]
      refine ⟨ha, by simp, ?_⟩
      intro a ha2 hb
      rw [List.mem_singleton] at hb
      subst hb
      exact ht ha2

lemma groupKeys_nodup (ts : List GenTask) : (groupKeys ts).Nodup :=
  foldl_keys_nodup _ rfl ts [] (by simp)

lemma cwdGroups_homogeneous (ts : List GenTask) :
    ∀ p ∈ cwdGroups ts, ∀ t ∈ p.2, t.cwd = p.1 := by
  intro p hp t ht
  unfold cwdGroups at hp
  obtain ⟨c, _, hpc⟩ := List.mem_map.mp hp
  subst hpc
  simpa using (List.mem_filter.mp ht).2

lemma cwdGroups_complete (ts : List GenTask) :
    ∀ t ∈ ts, ∃ p ∈ cwdGroups ts, t ∈ p.2 := by
  intro t ht
  refine ⟨(t.cwd, ts.filter (fun u => u.cwd = t.cwd)), ?_, ?_⟩
  · unfold cwdGroups
    exact List.mem_map.mpr ⟨t.cwd, foldl_keys_complete _ rfl ts [] t ht, rfl⟩
  · exact List.mem_filter.mpr ⟨ht, by simp⟩

lemma cwdGroups_keys_nodup (ts : List GenTask) : ((cwdGroups ts).map Prod.fst).Nodup := by
  unfold cwdGroups
  rw [List.map_map]
  have : (Prod.fst ∘ fun c => (c, ts.filter (fun t => t.cwd = c))) = id := rfl
  rw [this, List.map_id]
  exact groupKeys_nodup ts

/-- C4: one generate run never reports success when some scheduled task's
write fails: if any task in the expanded task list has a failing write, the
whole `_generate` call surfaces an error. -/
theorem generate_surfaces_write_failures (w : GenTask → Except String Unit)
    (mk : IncludedContent → List GenTask) (inc : Includes)
    (h : ∃ t ∈ allTasks mk inc, ∃ e, w t = Except.error e) :
    ∃ e, _generate w mk inc = Except.error e := by
  cases hg : _generate w mk inc with
  | error e => exact ⟨e, rfl⟩
  | ok u =>
    exfalso
    obtain ⟨t, ht, e, he⟩ := h
    cases u
    replace hg : runGroups w (cwdGroups (allTasks mk inc)) = Except.ok () := hg
    obtain ⟨p, hp, htp⟩ := cwdGroups_complete (allTasks mk inc) t ht
    have hok := runGroups_ok w _ hg p hp t htp
    rw [hok] at he
    exact Except.noConfusion he

theorem generate_surfaces_write_failures_witness :
    ∃ e, _generate (fun _ => Except.error "disk full")
        (fun ic => [{ content := ic.content, path := "out/" ++ ic.location, cwd := ic.cwd }])
        [{ location := "index.html", content := Content.renderer 0, cwd := "/work" }]
      = Except.error e :=
  generate_surfaces_write_failures _ _ _
    ⟨{ content := Content.renderer 0, path := "out/index.html", cwd := "/work" },
     by decide, "disk full", rfl⟩

/-! ### Trace lemmas (C5) -/

/-- Projection selecting the write events of a trace. -/
def writeOf : Ev → Option GenTask
  | Ev.writes t => some t
  | Ev.chdir _ => none

lemma annotate_append (d : String) :
    ∀ (xs ys : List Ev), annotate d (xs ++ ys) = annotate d xs ++ annotate (lastDir d xs) ys
  | [], ys => rfl
  | Ev.chdir c :: rest, ys => by
    rw [List.cons_append]
    show (c, Ev.chdir c) :: annotate c (rest ++ ys) = _
    rw [annotate_append c rest ys]
    rfl
  | Ev.writes t :: rest, ys => by
    rw [List.cons_append]
    show (d, Ev.writes t) :: annotate d (rest ++ ys) = _
    rw [annotate_append d rest ys]
    rfl

lemma lastDir_writes_append (d : String) :
    ∀ (g : List GenTask) (l : List Ev), lastDir d (g.map Ev.writes ++ l) = lastDir d l
  | [], _ => rfl
  | _ :: rest, l => lastDir_writes_append d rest l

lemma lastDir_groupEvents (d base c : String) (g : List GenTask) :
    lastDir d (groupEvents base c g) = base := by
  unfold groupEvents
  rw [List.cons_append]
  show lastDir c (g.map Ev.writes ++ [Ev.chdir base]) = base
  rw [lastDir_writes_append c g [Ev.chdir base]]
  rfl

lemma annotate_writes_append (c : String) :
    ∀ (g : List GenTask) (l : List Ev),
      annotate c (g.map Ev.writes ++ l)
        = g.map (fun t => (c, Ev.writes t)) ++ annotate c l
  | [], l => rfl
  | t :: rest, l => by
    rw [List.map_cons, List.cons_append]
    show (c, Ev.writes t) :: annotate c (rest.map Ev.writes ++ l) = _
    rw [annotate_writes_append c rest l]
    rfl

lemma annotate_groupEvents (d base c : String) (g : List GenTask) :
    annotate d (groupEvents base c g)
      = (c, Ev.chdir c)
          :: (g.map (fun t => (c, Ev.writes t)) ++ [(base, Ev.chdir base)]) := by
  unfold groupEvents
  rw [List.cons_append]
  show (c, Ev.chdir c) :: annotate c (g.map Ev.writes ++ [Ev.chdir base]) = _
  rw [annotate_writes_append c g [Ev.chdir base]]
  rfl

lemma annotate_groups_writes (base : String) :
    ∀ (gs : List (String × List GenTask)),
      (∀ p ∈ gs, ∀ t ∈ p.2, t.cwd = p.1) →
      ∀ (d : String) (t : GenTask),
        (d, Ev.writes t)
            ∈ annotate base (gs.flatMap (fun p => groupEvents base p.1 p.2)) →
        d = t.cwd
  | [], _, d, t, hmem => absurd hmem (by simp [annotate])
  | (c, g) :: rest, hhom, d, t, hmem => by
    rw [List.flatMap_cons, annotate_append, lastDir_groupEvents,
      annotate_groupEvents] at hmem
    rw [List.cons_append, List.mem_cons, List.mem_append, List.mem_append] at hmem
    cases hmem with
    | inl he =>
      rw [Prod.mk.injEq] at he
      exact absurd he.2 (by simp)
    | inr hmem2 =>
      cases hmem2 with
      | inl hmem3 =>
        cases hmem3 with
        | inl hw =>
          obtain ⟨u, hu, hue⟩ := List.mem_map.mp hw
          rw [Prod.mk.injEq] at hue
          have ht : t = u := by
            have := hue.2
            injection this.symm
          subst ht
          rw [← hue.1]
          exact (hhom (c, g) (List.mem_cons_self _ _) t hu).symm
        | inr hb =>
          rw [List.mem_singleton, Prod.mk.injEq] at hb
          exact absurd hb.2 (by simp)
      | inr hrest =>
        exact annotate_groups_writes base rest
          (fun p hp => hhom p (List.mem_cons_of_mem _ hp)) d t hrest

lemma filterMap_groupEvents (base c : String) (g : List GenTask) :
    (groupEvents base c g).filterMap writeOf = g := by
  unfold groupEvents
  rw [List.cons_append, List.filterMap_cons]
  show (g.map Ev.writes ++ [Ev.chdir base]).filterMap writeOf = g
  rw [List.filterMap_append, List.filterMap_map]
  have h1 : (writeOf ∘ Ev.writes) = some := rfl
  rw [h1, List.filterMap_some]
  show g ++ [] = g
  rw [List.append_nil]

lemma filterMap_groups (base : String) :
    ∀ (gs : List (String × List GenTask)),
      (gs.flatMap (fun p => groupEvents base p.1 p.2)).filterMap writeOf
        = gs.flatMap Prod.snd
  | [] => rfl
  | (c, g) :: rest => by
    rw [List.flatMap_cons, List.flatMap_cons, List.filterMap_append,
      filterMap_groupEvents, filterMap_groups base rest]

/-- C5: the write phase of one generate run is serialized between cwd-groups
and every task runs under its own recorded cwd.  Over the annotated event
trace of `_generate`: (i) every write event happens while the process working
directory equals the written task's recorded `cwd`; (ii) the write events, in
trace order, are exactly the cwd-groups laid out one after another (no
interleaving of groups); (iii) the groups carry pairwise distinct working
directories; (iv) each group holds only tasks recorded under its directory;
and (v) every task of the run belongs to some group. -/
theorem generate_serializes_cwd_groups (base : String) (ts : List GenTask) :
    (∀ (d : String) (t : GenTask),
        (d, Ev.writes t) ∈ annotate base (genEvents base ts) → d = t.cwd)
    ∧ (genEvents base ts).filterMap writeOf = (cwdGroups ts).flatMap Prod.snd
    ∧ ((cwdGroups ts).map Prod.fst).Nodup
    ∧ (∀ p ∈ cwdGroups ts, ∀ t ∈ p.2, t.cwd = p.1)
    ∧ (∀ t ∈ ts, ∃ p ∈ cwdGroups ts, t ∈ p.2) :=
  ⟨fun d t hmem =>
      annotate_groups_writes base (cwdGroups ts) (cwdGroups_homogeneous ts) d t hmem,
   filterMap_groups base (cwdGroups ts),
   cwdGroups_keys_nodup ts,
   cwdGroups_homogeneous ts,
   cwdGroups_complete ts⟩

theorem generate_serializes_cwd_groups_witness :
    "/w1" = ({ content := Content.renderer 0, path := "p1", cwd := "/w1" } : GenTask).cwd :=
  (generate_serializes_cwd_groups "/base"
      [{ content := Content.renderer 0, path := "p1", cwd := "/w1" },
       { content := Content.renderer 1, path := "p2", cwd := "/w2" }]).1
    "/w1" { content := Content.renderer 0, path := "p1", cwd := "/w1" } (by decide)

end Lightweight
